import Mathlib

/-!
Verification development for the MapCoder prompting strategy
(`src/promptings/MapCoder.py`).

The Python code is shallowly embedded:

* Python strings are `List Char` (`Str`); `str.replace`, `str.strip`,
  `in`-substring tests and `int()` are modelled character by character
  (`pyReplace`, `pyStrip`, `containsSub`, `pyInt`; `pyInt` covers decimal
  literals with optional sign and single separating underscores — unicode
  digits are out of scope).
* The regex patterns of `parse_code` all have the literal shape
  `OPEN((.|\n)*?)BACKTICKS` under `re.DOTALL`: a match is a literal
  occurrence of OPEN followed by the shortest run of characters ending at
  the next literal occurrence of three backticks.  `re.findall` on such a
  pattern returns, left to right and non-overlapping, the pairs
  (group 1, group 2) where group 1 is the in-between run and group 2 — the
  innermost single-character group — holds the last character of that run
  (empty when the run is empty).  `findBlocks` returns the group-1 runs;
  the group-2 artifact is reproduced by `joinedBlock`.
* `xml.etree.ElementTree.fromstring` is modelled on the markup fragment the
  code actually exchanges (tag-only elements, free text, CDATA sections; no
  attributes, entities or comments — anything else is a parse failure).
  Parse errors become `none`.
* Functions whose recursion is not structural take explicit fuel; every
  public wrapper supplies fuel that exceeds what the input can consume, so
  the fuel branch is unreachable there.
* Model calls and test execution are external collaborators: they enter the
  orchestration model (`Collab`) as function parameters, and an uncaught
  Python exception is `none`.
-/

namespace MapCoder

/-- Python strings, character by character. -/
abbrev Str := List Char

/-- The backtick character, extracted from a string literal. -/
def btk : Char := "`".toList.headI

/-- Boolean prefix test on character lists (the shape of `str.startswith`
matching used to locate substrings). -/
def isPrefB : Str → Str → Bool
  | [], _ => true
  | _ :: _, [] => false
  | c :: p, d :: s => c == d && isPrefB p s

/-- Python's `pat in s` substring test. -/
def containsSub (pat : Str) : Str → Bool
  | [] => pat.isEmpty
  | c :: rest => isPrefB pat (c :: rest) || containsSub pat rest

/-- Split `s` at the first occurrence of `pat`: `some (before, after)` with
`s = before ++ pat ++ after`, or `none` when `pat` does not occur.  This is
the primitive behind both the lazy-regex model and the CDATA scanner. -/
def splitAtSub (pat : Str) : Str → Option (Str × Str)
  | [] => if pat = [] then some ([], []) else none
  | c :: rest =>
    if isPrefB pat (c :: rest) then some ([], (c :: rest).drop pat.length)
    else (splitAtSub pat rest).map fun p => (c :: p.1, p.2)

theorem isPrefB_iff {p s : Str} : isPrefB p s = true ↔ ∃ t, s = p ++ t := by
  induction p generalizing s with
  | nil => simp [isPrefB]
  | cons c p ih =>
    cases s with
    | nil => simp [isPrefB]
    | cons d s =>
      simp only [isPrefB, Bool.and_eq_true, beq_iff_eq, ih, List.cons_append]
      constructor
      · rintro ⟨rfl, t, rfl⟩; exact ⟨t, rfl⟩
      · rintro ⟨t, h⟩
        cases h
        exact ⟨rfl, t, rfl⟩

theorem splitAtSub_eq_append {pat s b a : Str} (h : splitAtSub pat s = some (b, a)) :
    s = b ++ pat ++ a := by
  induction s generalizing b a with
  | nil =>
    by_cases hp : pat = ([] : Str) <;> simp [splitAtSub, hp] at h
    rcases h with ⟨rfl, rfl⟩
    simp [hp]
  | cons c rest ih =>
    by_cases hp : isPrefB pat (c :: rest) = true
    · rw [splitAtSub, if_pos hp] at h
      obtain ⟨t, ht⟩ := isPrefB_iff.mp hp
      rw [ht] at h ⊢
      rw [List.drop_left] at h
      simp only [Option.some.injEq, Prod.mk.injEq] at h
      obtain ⟨hb, ha⟩ := h
      rw [← hb, ← ha]
      simp
    · rw [splitAtSub, if_neg hp] at h
      cases hsp : splitAtSub pat rest with
      | none => rw [hsp] at h; simp at h
      | some p =>
        cases p with
        | mk b' a' =>
          rw [hsp] at h
          simp only [Option.map_some', Option.some.injEq, Prod.mk.injEq] at h
          obtain ⟨hb, ha⟩ := h
          rw [← hb, ← ha, ih hsp]
          simp

theorem splitAtSub_length_lt {pat s b a : Str} (hpat : pat ≠ [])
    (h : splitAtSub pat s = some (b, a)) : a.length < s.length := by
  have := splitAtSub_eq_append h
  subst this
  have : 0 < pat.length := List.length_pos.mpr hpat
  simp [List.length_append]
  omega

/-- Three backticks, the universal closing fence of every pattern. -/
def bq3 : Str := "```".toList

/-- Fuel-indexed scan for all non-overlapping matches of
`OPEN((.|\n)*?)BACKTICKS`, left to right, returning the group-1 runs. -/
def findBlocksF : Nat → Str → Str → List Str
  | 0, _, _ => []
  | fuel + 1, openPat, s =>
    match splitAtSub openPat s with
    | none => []
    | some (_, after) =>
      match splitAtSub bq3 after with
      | none => []
      | some (content, rest) => content :: findBlocksF fuel openPat rest

/-- All fenced-block contents for a given opening marker, in document
order (the model of `re.findall(pattern, response, re.DOTALL)`). -/
def findBlocks (openPat s : Str) : List Str := findBlocksF (s.length + 1) openPat s

theorem findBlocksF_fuel {openPat : Str} (hpat : openPat ≠ []) :
    ∀ fuel fuel' s, s.length < fuel → s.length < fuel' →
      findBlocksF fuel openPat s = findBlocksF fuel' openPat s := by
  intro fuel
  induction fuel with
  | zero => intro fuel' s h; omega
  | succ n ih =>
    intro fuel' s hs hs'
    cases fuel' with
    | zero => omega
    | succ m =>
      simp only [findBlocksF]
      cases h1 : splitAtSub openPat s with
      | none => rfl
      | some p =>
        cases p with
        | mk b after =>
          simp only
          cases h2 : splitAtSub bq3 after with
          | none => rfl
          | some q =>
            cases q with
            | mk content rest =>
              simp only [List.cons.injEq, true_and]
              have l1 : after.length < s.length := splitAtSub_length_lt hpat h1
              have l2 : rest.length < after.length :=
                splitAtSub_length_lt (by decide) h2
              exact ih m rest (by omega) (by omega)

theorem findBlocks_step {openPat : Str} (hpat : openPat ≠ []) (s : Str) :
    findBlocks openPat s =
      match splitAtSub openPat s with
      | none => []
      | some (_, after) =>
        match splitAtSub bq3 after with
        | none => []
        | some (content, rest) => content :: findBlocks openPat rest := by
  unfold findBlocks
  conv_lhs => rw [findBlocksF]
  cases h1 : splitAtSub openPat s with
  | none => rfl
  | some p =>
    cases p with
    | mk b after =>
      simp only
      cases h2 : splitAtSub bq3 after with
      | none => rfl
      | some q =>
        cases q with
        | mk content rest =>
          simp only [List.cons.injEq, true_and]
          have l1 : after.length < s.length := splitAtSub_length_lt hpat h1
          have l2 : rest.length < after.length := splitAtSub_length_lt (by decide) h2
          exact findBlocksF_fuel hpat _ _ rest (by omega) (by omega)

/-- Python whitespace for `str.strip` (the ASCII cases the responses use). -/
def isWsCh (c : Char) : Bool := c = ' ' || c = '\n' || c = '\t' || c = '\r'

/-- Python `str.strip()`. -/
def pyStrip (s : Str) : Str := ((s.dropWhile isWsCh).reverse.dropWhile isWsCh).reverse

/-- Fuel-indexed worker for `str.replace`: non-overlapping, left to right,
the replacement is not rescanned. -/
def pyReplaceF : Nat → Str → Str → Str → Str
  | 0, _, _, s => s
  | fuel + 1, pat, rep, s =>
    match s with
    | [] => []
    | c :: rest =>
      if !pat.isEmpty && isPrefB pat (c :: rest) then
        rep ++ pyReplaceF fuel pat rep ((c :: rest).drop pat.length)
      else
        c :: pyReplaceF fuel pat rep rest

/-- Python `s.replace(pat, rep)`.  Each step of the worker consumes at least
one character of `s`, so `s.length + 1` units of fuel can never run out. -/
def pyReplace (s pat rep : Str) : Str := pyReplaceF (s.length + 1) pat rep s

/-- Tail of a Python decimal literal: digits with single separating
underscores, as accepted by `int()`. -/
def digitsTail : Str → Bool
  | [] => true
  | '_' :: c :: rest => c.isDigit && digitsTail rest
  | '_' :: [] => false
  | c :: rest => c.isDigit && digitsTail rest

/-- Well-formed unsigned Python decimal literal. -/
def digitsOK : Str → Bool
  | [] => false
  | c :: rest => c.isDigit && digitsTail rest

/-- Numeric value of a digit string, underscores skipped. -/
def digitsVal (ds : Str) : Nat :=
  ds.foldl (fun n c => if c = '_' then n else 10 * n + (c.toNat - 48)) 0

/-- Unsigned part of Python `int()`. -/
def pyIntCore (ds : Str) : Option Int :=
  if digitsOK ds then some (digitsVal ds : Int) else none

/-- Python `int(s)` on a decimal string: surrounding whitespace, an optional
sign, then digits.  `none` models the `ValueError`. -/
def pyInt (s : Str) : Option Int :=
  match pyStrip s with
  | '+' :: rest => pyIntCore rest
  | '-' :: rest => (pyIntCore rest).map (fun n => -n)
  | t => pyIntCore t

/-- The `if "```X" in response:` chain of `parse_code`, lines 88-133: each
test that fires overwrites the pattern, so the last hint present (in source
order) wins; with no hint the bare fence pattern stands. -/
def selectPattern (r : Str) : Str :=
  let p := "```".toList
  let p := if containsSub "```Python".toList r then "```Python".toList else p
  let p := if containsSub "```Python3".toList r then "```Python3".toList else p
  let p := if containsSub "```python".toList r then "```python".toList else p
  let p := if containsSub "```python3".toList r then "```python3".toList else p
  let p := if containsSub "```C".toList r then "```C".toList else p
  let p := if containsSub "```c".toList r then "```c".toList else p
  let p := if containsSub "```C++".toList r then "```C++".toList else p
  let p := if containsSub "```c++".toList r then "```c++".toList else p
  let p := if containsSub "```Java".toList r then "```Java".toList else p
  let p := if containsSub "```java".toList r then "```java".toList else p
  let p := if containsSub "```Node".toList r then "```Node".toList else p
  let p := if containsSub "```node".toList r then "```node".toList else p
  let p := if containsSub "```Rust".toList r then "```Rust".toList else p
  let p := if containsSub "```rust".toList r then "```rust".toList else p
  let p := if containsSub "```PHP".toList r then "```PHP".toList else p
  let p := if containsSub "```php".toList r then "```php".toList else p
  let p := if containsSub "```Go".toList r then "```Go".toList else p
  let p := if containsSub "```go".toList r then "```go".toList else p
  let p := if containsSub "```Ruby".toList r then "```Ruby".toList else p
  let p := if containsSub "```ruby".toList r then "```ruby".toList else p
  let p := if containsSub "```C#".toList r then "```C#".toList else p
  let p := if containsSub "```c#".toList r then "```c#".toList else p
  let p := if containsSub "```csharp".toList r then "```csharp".toList else p
  p

/-- Group 2 of the match: the last character of the group-1 run, or nothing
when the run is empty. -/
def lastCharPiece (content : Str) : Str :=
  match content.getLast? with
  | some c => [c]
  | none => []

/-- The string built at line 138: `"\n".join(code_blocks[-1])` over the
(group 1, group 2) tuple. -/
def joinedBlock (content : Str) : Str := content ++ '\n' :: lastCharPiece content

/-- Model of `parse_code` (lines 83-144).  `none` is the uncaught
`IndexError` raised by `code_blocks[-1]` on an empty match list.  The
`else: code_str = response` arm at line 142 is unreachable because every
pattern has two groups, so `findall` always yields tuples. -/
def parse_code (response : Str) : Option Str :=
  if containsSub "```".toList response = false then some response
  else
    match (findBlocks (selectPattern response) response).getLast? with
    | none => none
    | some content => some (joinedBlock content)

/-- Parsed element: tag, `.text` (the character data before the first child,
`none` when there is none — matching `ElementTree`), children.  Tails are
not recorded because `xml_to_dict` never reads them. -/
inductive Element where
  | mk : Str → Option Str → List Element → Element

/-- Tag of an element. -/
def Element.tag : Element → Str
  | .mk t _ _ => t

/-- Text payload of an element. -/
def Element.text : Element → Option Str
  | .mk _ tx _ => tx

/-- Children of an element. -/
def Element.children : Element → List Element
  | .mk _ _ ks => ks

/-- Values of the dictionary built by `xml_to_dict`: element text (which may
be Python `None`), a nested dictionary, a list grown from repeated sibling
tags, or the integer written by `_process_verification_response`. -/
inductive DVal where
  | text : Option Str → DVal
  | dict : List (Str × DVal) → DVal
  | list : List DVal → DVal
  | int : Int → DVal

/-- Dictionary lookup (`result[tag]`, read side). -/
def lookupA : List (Str × DVal) → Str → Option DVal
  | [], _ => none
  | (k, v) :: rest, key => if k = key then some v else lookupA rest key

/-- Dictionary write (`result[tag] = v`): in place for an existing key, at
the end for a new one — exactly Python's insertion-order behaviour. -/
def updateA : List (Str × DVal) → Str → DVal → List (Str × DVal)
  | [], key, v => [(key, v)]
  | (k, w) :: rest, key, v =>
    if k = key then (key, v) :: rest else (k, w) :: updateA rest key v

/-- Loop body of `xml_to_dict` (lines 54-65), with the recursive descent
into a child abstracted as `rec`.  `if child:` is element truthiness, i.e.
"has children"; only that branch groups repeated sibling tags into lists —
childless repeats overwrite under plain `result[child.tag] = child.text`.
The descent happens only in the has-children branch, as in the source. -/
def xmlStepWith (rec : Element → List (Str × DVal)) (acc : List (Str × DVal))
    (c : Element) : List (Str × DVal) :=
  match c with
  | .mk tg tx ckids =>
    if ckids.isEmpty then updateA acc tg (DVal.text tx)
    else
      match lookupA acc tg with
      | some (DVal.list l) => updateA acc tg (DVal.list (l ++ [DVal.dict (rec c)]))
      | some v => updateA acc tg (DVal.list [v, DVal.dict (rec c)])
      | none => updateA acc tg (DVal.dict (rec c))

/-- Fuel-indexed model of `xml_to_dict` (lines 52-66): fold the loop body
over the children in document order.  The fuel bound exceeds the element
depth at every call site. -/
def xmlToDictF : Nat → Element → List (Str × DVal)
  | 0, _ => []
  | fuel + 1, .mk _ _ kids => kids.foldl (xmlStepWith (fun c => xmlToDictF fuel c)) []

/-- Depth of an element tree, to pick sufficient fuel. -/
def elemDepthF : Nat → Element → Nat
  | 0, _ => 0
  | fuel + 1, .mk _ _ kids =>
    kids.foldl (fun m c => max m (elemDepthF fuel c + 1)) 1

/-- Name characters of the markup fragment in use. -/
def nameChar (c : Char) : Bool := c.isAlphanum || c = '_' || c = '-' || c = '.' || c = ':'

/-- Literal opening of a CDATA section. -/
def cdataOpen : Str := "<![CDATA[".toList

/-- Literal closing of a CDATA section. -/
def cdataClose : Str := "]]>".toList

mutual
/-- Fuel-indexed element parser: `<name>` then content up to the matching
close tag.  Anything else (attributes, self-closing forms, comments,
declarations) is a parse failure, which is conservative for the markup this
program exchanges. -/
def parseElemF : Nat → Str → Option (Element × Str)
  | 0, _ => none
  | fuel + 1, s =>
    match s with
    | '<' :: rest =>
      let nm := rest.takeWhile nameChar
      if nm.isEmpty then none
      else
        match rest.drop nm.length with
        | '>' :: rest2 => parseContentF fuel nm rest2 none []
        | _ => none
    | _ => none

/-- Content loop of an open element: CDATA sections and raw text feed
`.text` while no child has been seen (later text is tail data, which the
dictionary conversion ignores); nested elements become children; the
matching close tag ends the element; a mismatched close tag or the end of
input is a parse failure. -/
def parseContentF : Nat → Str → Str → Option Str → List Element → Option (Element × Str)
  | 0, _, _, _, _ => none
  | fuel + 1, tag, s, txt, kids =>
    if isPrefB cdataOpen s then
      match splitAtSub cdataClose (s.drop cdataOpen.length) with
      | none => none
      | some (cd, rest) =>
        parseContentF fuel tag rest
          (if kids.isEmpty then some ((txt.getD []) ++ cd) else txt) kids
    else
      match s with
      | '<' :: '/' :: rest =>
        let nm := rest.takeWhile nameChar
        (match rest.drop nm.length with
        | '>' :: rest2 => if nm = tag then some (Element.mk tag txt kids, rest2) else none
        | _ => none)
      | '<' :: _ =>
        match parseElemF fuel s with
        | none => none
        | some (child, rest) => parseContentF fuel tag rest txt (kids ++ [child])
      | [] => none
      | _ =>
        let chunk := s.takeWhile (fun c => c ≠ '<')
        parseContentF fuel tag (s.drop chunk.length)
          (if kids.isEmpty then some ((txt.getD []) ++ chunk) else txt) kids
end

/-- Model of `ET.fromstring`: optional surrounding whitespace around exactly
one root element; trailing junk is an error.  `none` models `ParseError`. -/
def fromstring (s : Str) : Option Element :=
  let t := s.dropWhile isWsCh
  match parseElemF (2 * t.length + 2) t with
  | none => none
  | some (e, rest) => if rest.dropWhile isWsCh = [] then some e else none

/-- Dictionary conversion of a freshly parsed tree; the depth of a parsed
element is below half its source length, so the fuel is sufficient. -/
def elemToDict (e : Element) (sourceLen : Nat) : List (Str × DVal) :=
  xmlToDictF (sourceLen + 1) e

/-- Model of `parse_xml` (lines 68-81): strip code fences, then three parse
attempts — raw, wrapped in `<root>...</root>`, wrapped with an opening
`<root>` only.  A failure of the last attempt propagates (`none`). -/
def parse_xml (response : Str) : Option (List (Str × DVal)) :=
  let r := pyReplace response "```xml".toList []
  let r := pyReplace r "```".toList []
  match fromstring r with
  | some root => some (elemToDict root r.length)
  | none =>
    match fromstring ("<root>\n".toList ++ r ++ "\n</root>".toList) with
    | some root => some (elemToDict root (r.length + 14))
    | none =>
      (fromstring ("<root>\n".toList ++ r)).map fun root => elemToDict root (r.length + 7)

/-- Literal `<tag>`. -/
def tagOpen (tag : Str) : Str := '<' :: (tag ++ ['>'])

/-- Literal `</tag>`. -/
def tagClose (tag : Str) : Str := '<' :: '/' :: (tag ++ ['>'])

/-- Literal `<tag><![CDATA[`. -/
def tagOpenCD (tag : Str) : Str := tagOpen tag ++ cdataOpen

/-- Literal `]]></tag>`. -/
def tagCloseCD (tag : Str) : Str := cdataClose ++ tagClose tag

/-- Model of `replace_tag` (lines 150-155). -/
def replaceTag (text tag : Str) : Str :=
  if containsSub (tagOpenCD tag) text && containsSub (tagCloseCD tag) text then text
  else
    pyStrip (pyReplace (pyReplace text (tagOpen tag) (tagOpenCD tag))
      (tagClose tag) (tagCloseCD tag))

/-- Model of `trim_text` (lines 146-148). -/
def trimText (text pat : Str) : Str := pyStrip (pyReplace text pat [])

/-- The preprocessing `_process_verification_response` performs before
parsing (lines 345-347). -/
def transformedVerification (response : Str) : Str :=
  replaceTag (replaceTag (trimText response "Discuss whether...".toList)
    "explanation".toList) "confidence".toList

/-- Model of `_process_verification_response` (lines 343-356): preprocess,
parse, then coerce the confidence entry with `int()`, any `ValueError`,
`KeyError` or `TypeError` defaulting to 0.  A missing key, Python `None`
text, a nested dictionary or a list all raise one of the caught errors and
yield 0.  `none` is an uncaught exception escaping `parse_xml`. -/
def processVerificationResponse (response : Str) : Option (List (Str × DVal)) :=
  (parse_xml (transformedVerification response)).map fun result =>
    let conf : Int :=
      match lookupA result "confidence".toList with
      | some (DVal.text (some s)) => (pyInt s).getD 0
      | some (DVal.int n) => n
      | _ => 0
    updateA result "confidence".toList (DVal.int conf)

/-- External collaborators of the plan/code phase, abstracted as functions
(the generative service is deterministic per prompt in this model):
`generate` is `_generate_code` for a given planning, `evaluate` is
`self.data.evaluate` on a candidate, `improve` is `_improve_code` given
planning, iteration number, current code and test log.  Each model call
also returns its prompt/completion token counts. -/
structure Collab where
  generate : String → String × Nat × Nat
  evaluate : String → Bool × String
  improve : String → Nat → String → String → String × Nat × Nat

/-- Outcome of `_try_improve_code` plus ghost instrumentation: the number of
evaluation calls and of repair (`_improve_code`) calls actually made. -/
structure TIResult where
  result : Option String
  pr : Nat
  com : Nat
  evals : Nat
  repairs : Nat
deriving DecidableEq

/-- Loop body of `_try_improve_code` (lines 362-383): `iter` is the Python
loop variable `i`, `budget` the number of iterations left.  Each iteration
evaluates the current candidate, returns it on pass, otherwise repairs and
continues; falling off the loop yields `None`. -/
def tryImproveAux (f : String → Bool × String)
    (g : Nat → String → String → String × Nat × Nat) : Nat → Nat → String → TIResult
  | _, 0, _ => ⟨none, 0, 0, 0, 0⟩
  | iter, budget + 1, code =>
    let e := f code
    if e.1 then ⟨some code, 0, 0, 1, 0⟩
    else
      let gr := g iter code e.2
      let r := tryImproveAux f g (iter + 1) budget gr.1
      ⟨r.result, gr.2.1 + r.pr, gr.2.2 + r.com, r.evals + 1, r.repairs + 1⟩

/-- Model of `_try_improve_code` (lines 357-385): `for i in range(1, t+1)`
makes `max t 0` iterations starting at `i = 1`. -/
def tryImproveCode (f : String → Bool × String)
    (g : Nat → String → String → String × Nat × Nat) (t : Int) (code : String) : TIResult :=
  tryImproveAux f g 1 t.toNat code

/-- Candidate evaluated at attempt `k + 1` of the repair loop, when every
earlier attempt failed: `candFrom f g iter code 0` is the incoming code and
each step applies one repair call at the current iteration number. -/
def candFrom (f : String → Bool × String)
    (g : Nat → String → String → String × Nat × Nat) : Nat → String → Nat → String
  | _, code, 0 => code
  | iter, code, k + 1 => candFrom f g (iter + 1) ((g iter code (f code).2).1) k

/-- The plan loop of `run_single_pass` (lines 198-215): generate code for
each ranked planning, run the repair loop, return the first repaired
success; if every plan fails, return the code generated for the final plan
(the local rebindings inside `_try_improve_code` never reach this frame).
With no plannings at all the Python `return code` raises `NameError`,
modelled as `none`. -/
def runPlansAux (cb : Collab) (t : Int) :
    List (String × Int) → Nat → Nat → Option (String × Nat × Nat)
  | [], _, _ => none
  | (planning, _) :: rest, pr, com =>
    let gen := cb.generate planning
    let r := tryImproveCode cb.evaluate (cb.improve planning) t gen.1
    let pr2 := pr + gen.2.1 + r.pr
    let com2 := com + gen.2.2 + r.com
    match r.result with
    | some improved => some (improved, pr2, com2)
    | none =>
      match rest with
      | [] => some (gen.1, pr2, com2)
      | _ :: _ => runPlansAux cb t rest pr2 com2

/-- Stable descending insertion: a new pair goes before the first existing
pair whose confidence is not larger.  This is the unique stable descending
order, hence the model of `plannings.sort(key=lambda x: x[1], reverse=True)`
(line 195, CPython's stable sort under `reverse=True`). -/
def insertDesc (p : String × Int) : List (String × Int) → List (String × Int)
  | [] => [p]
  | q :: qs => if q.2 ≤ p.2 then p :: q :: qs else q :: insertDesc p qs

/-- Stable descending sort by confidence. -/
def sortByConfDesc : List (String × Int) → List (String × Int)
  | [] => []
  | x :: xs => insertDesc x (sortByConfDesc xs)

/-- The ranked-plans phase of `run_single_pass`: sort, then run the plan
loop with the token counters accumulated so far. -/
def runSinglePassPlans (cb : Collab) (t : Int) (plannings : List (String × Int))
    (pr com : Nat) : Option (String × Nat × Nat) :=
  runPlansAux cb t (sortByConfDesc plannings) pr com

/-- Prompt tokens one plan contributes: its code generation plus its whole
repair loop. -/
def planPrTok (cb : Collab) (t : Int) (p : String) : Nat :=
  (cb.generate p).2.1 + (tryImproveCode cb.evaluate (cb.improve p) t (cb.generate p).1).pr

/-- Completion tokens one plan contributes. -/
def planComTok (cb : Collab) (t : Int) (p : String) : Nat :=
  (cb.generate p).2.2 + (tryImproveCode cb.evaluate (cb.improve p) t (cb.generate p).1).com

theorem tryImproveAux_repairs_le (f : String → Bool × String)
    (g : Nat → String → String → String × Nat × Nat) :
    ∀ budget iter code, (tryImproveAux f g iter budget code).repairs ≤ budget := by
  intro budget
  induction budget with
  | zero => intro iter code; simp [tryImproveAux]
  | succ b ih =>
    intro iter code
    rw [tryImproveAux]
    by_cases h : (f code).1 = true
    · simp [h]
    · simp only [Bool.not_eq_true] at h
      simp only [h, Bool.false_eq_true, if_false]
      have hb := ih (iter + 1) ((g iter code (f code).2).1)
      show (tryImproveAux f g (iter + 1) b ((g iter code (f code).2).1)).repairs + 1 ≤ b + 1
      omega

theorem tryImproveAux_early (f : String → Bool × String)
    (g : Nat → String → String → String × Nat × Nat) :
    ∀ k budget iter code, k < budget →
      (∀ j, j < k → (f (candFrom f g iter code j)).1 = false) →
      (f (candFrom f g iter code k)).1 = true →
      (tryImproveAux f g iter budget code).result = some (candFrom f g iter code k) ∧
      (tryImproveAux f g iter budget code).evals = k + 1 ∧
      (tryImproveAux f g iter budget code).repairs = k := by
  intro k
  induction k with
  | zero =>
    intro budget iter code hb _ hpass
    cases budget with
    | zero => omega
    | succ b =>
      have hp : (f code).1 = true := hpass
      rw [tryImproveAux]
      simp [hp, candFrom]
  | succ k ih =>
    intro budget iter code hb hfail hpass
    cases budget with
    | zero => omega
    | succ b =>
      have h0 : (f code).1 = false := hfail 0 (Nat.succ_pos k)
      rw [tryImproveAux]
      simp only [h0, Bool.false_eq_true, if_false]
      have hstep : ∀ j, candFrom f g iter code (j + 1) =
          candFrom f g (iter + 1) ((g iter code (f code).2).1) j := by
        intro j; rfl
      have ihh := ih b (iter + 1) ((g iter code (f code).2).1) (by omega)
        (fun j hj => by rw [← hstep j]; exact hfail (j + 1) (by omega))
        (by rw [← hstep k]; exact hpass)
      refine ⟨?_, ?_, ?_⟩
      · rw [hstep k]
        exact ihh.1
      · exact congrArg (· + 1) ihh.2.1
      · exact congrArg (· + 1) ihh.2.2

/-- C3: for every plan and every configured bound `t`, `_try_improve_code`
issues at most `t` repair calls; and when attempts `1..k` fail and attempt
`k+1 ≤ t` passes, the loop returns that candidate immediately, having made
exactly `k + 1` evaluations and `k` repair calls — no further repairs, no
further evaluations. -/
theorem C3_repair_bound_early_stop (f : String → Bool × String)
    (g : Nat → String → String → String × Nat × Nat) (t : Int) (code : String) :
    (tryImproveCode f g t code).repairs ≤ t.toNat ∧
    ∀ k, k < t.toNat →
      (∀ j, j < k → (f (candFrom f g 1 code j)).1 = false) →
      (f (candFrom f g 1 code k)).1 = true →
      (tryImproveCode f g t code).result = some (candFrom f g 1 code k) ∧
      (tryImproveCode f g t code).evals = k + 1 ∧
      (tryImproveCode f g t code).repairs = k := by
  constructor
  · exact tryImproveAux_repairs_le f g t.toNat 1 code
  · intro k hk hfail hpass
    exact tryImproveAux_early f g k t.toNat 1 code hk hfail hpass

/-- Witness for C3: the first candidate fails, the first repaired candidate
passes at attempt 2 with bound `t = 2`; the loop stops there with one repair
call and two evaluations. -/
theorem C3_repair_bound_early_stop_witness :
    (tryImproveCode (fun c => (c == "BB", "L")) (fun _ c _ => (c ++ "B", 1, 1)) 2 "B").repairs ≤ 2 ∧
    (tryImproveCode (fun c => (c == "BB", "L")) (fun _ c _ => (c ++ "B", 1, 1)) 2 "B").result =
      some (candFrom (fun c => (c == "BB", "L")) (fun _ c _ => (c ++ "B", 1, 1)) 1 "B" 1) ∧
    (tryImproveCode (fun c => (c == "BB", "L")) (fun _ c _ => (c ++ "B", 1, 1)) 2 "B").evals = 2 ∧
    (tryImproveCode (fun c => (c == "BB", "L")) (fun _ c _ => (c ++ "B", 1, 1)) 2 "B").repairs = 1 := by
  have h := C3_repair_bound_early_stop (fun c => (c == "BB", "L"))
    (fun _ c _ => (c ++ "B", 1, 1)) 2 "B"
  refine ⟨h.1, ?_⟩
  exact h.2 1 (by decide)
    (by
      intro j hj
      have : j = 0 := by omega
      subst this
      decide)
    (by decide)

/-- C10: with a configured bound `t < 1` the loop body never runs:
`_try_improve_code` returns `(None, 0, 0)` with zero evaluation calls and
zero repair calls, whatever the collaborators would have answered — even a
candidate that would pass is reported as a failed plan. -/
theorem C10_no_budget_means_no_calls (t : Int) (h : t < 1) (f : String → Bool × String)
    (g : Nat → String → String → String × Nat × Nat) (code : String) :
    tryImproveCode f g t code = ⟨none, 0, 0, 0, 0⟩ := by
  have ht : t.toNat = 0 := by omega
  rw [tryImproveCode, ht]
  rfl

/-- Witness for C10: at `t = 0` even an always-passing evaluator is never
consulted. -/
theorem C10_no_budget_means_no_calls_witness :
    (0 : Int) < 1 ∧
    tryImproveCode (fun _ => (true, "ok")) (fun _ c _ => (c, 0, 0)) 0 "A" = ⟨none, 0, 0, 0, 0⟩ :=
  ⟨by decide, C10_no_budget_means_no_calls 0 (by decide) _ _ "A"⟩

/-- C9: there are inputs that contain the fence marker but no complete
fenced block for the selected pattern — a lone unhinted fence, and a hinted
opening fence with no closing fence — on which `parse_code` raises
(`IndexError` from `code_blocks[-1]`, modelled as `none`) instead of
returning a best-effort string. -/
theorem C9_incomplete_fence_raises :
    (containsSub "```".toList "x ``` y".toList = true ∧
      parse_code "x ``` y".toList = none) ∧
    (containsSub "```".toList "```python\ncode".toList = true ∧
      parse_code "```python\ncode".toList = none) := by
  decide

theorem mem_insertDesc {p x : String × Int} {l : List (String × Int)} :
    x ∈ insertDesc p l ↔ x = p ∨ x ∈ l := by
  induction l with
  | nil => simp [insertDesc]
  | cons q qs ih =>
    rw [insertDesc]
    by_cases h : q.2 ≤ p.2
    · simp only [if_pos h, List.mem_cons]
    · simp only [if_neg h, List.mem_cons, ih]
      tauto

theorem pairwise_insertDesc {p : String × Int} {l : List (String × Int)}
    (h : List.Pairwise (fun a b : String × Int => b.2 ≤ a.2) l) :
    List.Pairwise (fun a b : String × Int => b.2 ≤ a.2) (insertDesc p l) := by
  induction l with
  | nil => simp [insertDesc]
  | cons q qs ih =>
    rw [List.pairwise_cons] at h
    obtain ⟨hq, hqs⟩ := h
    rw [insertDesc]
    by_cases hc : q.2 ≤ p.2
    · rw [if_pos hc, List.pairwise_cons]
      refine ⟨?_, List.pairwise_cons.mpr ⟨hq, hqs⟩⟩
      intro x hx
      rcases List.mem_cons.mp hx with rfl | hx
      · exact hc
      · exact le_trans (hq x hx) hc
    · rw [if_neg hc, List.pairwise_cons]
      refine ⟨?_, ih hqs⟩
      intro x hx
      rcases mem_insertDesc.mp hx with rfl | hx
      · omega
      · exact hq x hx

theorem pairwise_sortByConfDesc (l : List (String × Int)) :
    List.Pairwise (fun a b : String × Int => b.2 ≤ a.2) (sortByConfDesc l) := by
  induction l with
  | nil => simp [sortByConfDesc]
  | cons x xs ih => exact pairwise_insertDesc ih

theorem filter_insertDesc_pos {c : Int} {p : String × Int} {l : List (String × Int)}
    (hp : p.2 = c) (h : List.Pairwise (fun a b : String × Int => b.2 ≤ a.2) l) :
    (insertDesc p l).filter (fun x => x.2 == c) =
      p :: l.filter (fun x => x.2 == c) := by
  have hpt : (p.2 == c) = true := by simp [hp]
  induction l with
  | nil => simp [insertDesc, List.filter_cons, hpt]
  | cons q qs ih =>
    rw [List.pairwise_cons] at h
    obtain ⟨hq, hqs⟩ := h
    rw [insertDesc]
    by_cases hc : q.2 ≤ p.2
    · rw [if_pos hc, List.filter_cons, List.filter_cons]
      simp only [hpt, if_true]
    · rw [if_neg hc]
      have hqne : (q.2 == c) = false := by
        simp only [beq_eq_false_iff_ne, ne_eq]
        omega
      rw [List.filter_cons, List.filter_cons]
      simp only [hqne, Bool.false_eq_true, if_false]
      exact ih hqs

theorem filter_insertDesc_neg {c : Int} {p : String × Int} {l : List (String × Int)}
    (hp : ¬ p.2 = c) :
    (insertDesc p l).filter (fun x => x.2 == c) = l.filter (fun x => x.2 == c) := by
  have hpf : (p.2 == c) = false := by simp [hp]
  induction l with
  | nil => simp [insertDesc, List.filter_cons, hpf]
  | cons q qs ih =>
    rw [insertDesc]
    by_cases hc : q.2 ≤ p.2
    · rw [if_pos hc, List.filter_cons, List.filter_cons]
      simp only [hpf, Bool.false_eq_true, if_false]
    · rw [if_neg hc, List.filter_cons, List.filter_cons]
      rw [ih]

/-- C4: the sort at line 195 produces pairs whose confidences are
non-increasing, and pairs of equal confidence keep their original relative
order (CPython's sort is stable, also under `reverse=True`): filtering by
any confidence value commutes with sorting. -/
theorem C4_sort_descending_stable (l : List (String × Int)) :
    List.Pairwise (fun a b : String × Int => b.2 ≤ a.2) (sortByConfDesc l) ∧
    ∀ c : Int, (sortByConfDesc l).filter (fun x => x.2 == c) =
      l.filter (fun x => x.2 == c) := by
  refine ⟨pairwise_sortByConfDesc l, ?_⟩
  intro c
  induction l with
  | nil => simp [sortByConfDesc]
  | cons x xs ih =>
    rw [sortByConfDesc]
    by_cases hx : x.2 = c
    · rw [filter_insertDesc_pos hx (pairwise_sortByConfDesc xs), ih, List.filter_cons]
      simp [hx]
    · rw [filter_insertDesc_neg hx, ih, List.filter_cons]
      have hxf : (x.2 == c) = false := by simp [hx]
      simp [hxf]

theorem lookupA_updateA (d : List (Str × DVal)) (k : Str) (v : DVal) :
    lookupA (updateA d k v) k = some v := by
  induction d with
  | nil => simp [updateA, lookupA]
  | cons p rest ih =>
    cases p with
    | mk kk vv =>
      rw [updateA]
      by_cases h : kk = k
      · rw [if_pos h, lookupA, if_pos rfl]
      · rw [if_neg h, lookupA, if_neg h, ih]

/-- A confidence entry `int()` cannot interpret: absent, Python `None`, a
nested dictionary or list, or text that is not a decimal literal. -/
def confUnparsable (d : List (Str × DVal)) : Bool :=
  match lookupA d "confidence".toList with
  | some (DVal.text (some s)) => (pyInt s).isNone
  | some (DVal.int _) => false
  | _ => true

/-- Counterexample to C6: the response `"</a>"` has no confidence field at
all, yet `_process_verification_response` does not return confidence 0 — it
raises, because the stray closing tag defeats all three parse attempts and
the `ParseError` escapes (the `try` at line 351 only catches `ValueError`,
`KeyError` and `TypeError`). -/
theorem C6_counterexample :
    containsSub "<confidence>".toList "</a>".toList = false ∧
    processVerificationResponse "</a>".toList = none := by
  exact ⟨rfl, rfl⟩

/-- C6 amended: whenever the (preprocessed) verification response is parsed
successfully by `parse_xml` — directly or through its wrapping fallbacks —
a missing, non-numeric or otherwise uninterpretable confidence field is
replaced by exactly the integer 0 and no exception is raised; responses
whose markup defeats all three parse attempts still raise. -/
theorem C6_unparsable_confidence_zero (r : Str) (d : List (Str × DVal))
    (hp : parse_xml (transformedVerification r) = some d)
    (hu : confUnparsable d = true) :
    processVerificationResponse r = some (updateA d "confidence".toList (DVal.int 0)) ∧
    lookupA (updateA d "confidence".toList (DVal.int 0)) "confidence".toList =
      some (DVal.int 0) := by
  refine ⟨?_, lookupA_updateA d _ _⟩
  rw [processVerificationResponse, hp, Option.map_some']
  cases hl : lookupA d "confidence".toList with
  | none => simp only [hl]
  | some v =>
    cases v with
    | text tx =>
      cases tx with
      | none => simp only [hl]
      | some s =>
        simp only [confUnparsable, hl, Option.isNone_iff_eq_none] at hu
        simp only [hl, hu, Option.getD_none]
    | dict d2 => simp only [hl]
    | list l2 => simp only [hl]
    | int n =>
      simp only [confUnparsable, hl] at hu
      cases hu

/-- Witness for C6: a well-formed verification response with no confidence
element parses, and the processed result carries confidence 0. -/
theorem C6_unparsable_confidence_zero_witness :
    processVerificationResponse "<root><explanation>e</explanation></root>".toList =
      some (updateA [("explanation".toList, DVal.text (some "e".toList))]
        "confidence".toList (DVal.int 0)) ∧
    lookupA (updateA [("explanation".toList, DVal.text (some "e".toList))]
      "confidence".toList (DVal.int 0)) "confidence".toList = some (DVal.int 0) :=
  C6_unparsable_confidence_zero "<root><explanation>e</explanation></root>".toList
    [("explanation".toList, DVal.text (some "e".toList))] rfl rfl

/-- Counterexample to C7: the verification response announcing confidence
150 is accepted without complaint and the resulting confidence is 150,
outside the 0–100 range — line 352 applies `int()` with no range check. -/
theorem C7_counterexample :
    processVerificationResponse
      "<root><explanation>e</explanation><confidence>150</confidence></root>".toList =
      some [("explanation".toList, DVal.text (some "e".toList)),
        ("confidence".toList, DVal.int 150)] ∧
    ¬ ((150 : Int) ≤ 100) := by
  exact ⟨rfl, by decide⟩

/-- C7 amended: every accepted verification response yields an integer
confidence — but it is the raw `int()` of the field (0 on failure), with no
enforcement of the 0–100 range. -/
theorem C7_confidence_integer (r : Str) (d : List (Str × DVal))
    (h : processVerificationResponse r = some d) :
    ∃ c : Int, lookupA d "confidence".toList = some (DVal.int c) := by
  rw [processVerificationResponse] at h
  cases hp : parse_xml (transformedVerification r) with
  | none => rw [hp] at h; cases h
  | some d0 =>
    rw [hp, Option.map_some'] at h
    simp only [Option.some.injEq] at h
    exact ⟨_, by rw [← h]; exact lookupA_updateA d0 _ _⟩

/-- Witness for C7 at the confidence-150 response. -/
theorem C7_confidence_integer_witness :
    ∃ c : Int, lookupA [("explanation".toList, DVal.text (some "e".toList)),
      ("confidence".toList, DVal.int 150)] "confidence".toList = some (DVal.int c) :=
  C7_confidence_integer
    "<root><explanation>e</explanation><confidence>150</confidence></root>".toList
    [("explanation".toList, DVal.text (some "e".toList)),
      ("confidence".toList, DVal.int 150)] rfl

/-- Counterexample to C8: a response that is well formed except for its
missing closing root tag fails the direct parse, and both wrapped retries
fail too — the added `</root>` closes the response's own dangling `<root>`,
leaving the outer wrapper unclosed — so `parse_xml` raises instead of
recovering. -/
theorem C8_counterexample :
    fromstring ("<root>\n".toList ++ "<root><a>x</a>".toList ++ "\n</root>".toList) = none ∧
    parse_xml "<root><a>x</a>".toList = none := by
  exact ⟨rfl, rfl⟩

/-- C8 amended: the second-tier fallback (wrap in `<root>...</root>` and
retry) recovers an otherwise well-formed response that lacks the enclosing
root element altogether, such as bare sibling children; a response missing
only its closing root tag is not recoverable by any tier. -/
theorem C8_second_tier_recovery :
    (fromstring "<a>x</a><b>y</b>".toList = none ∧
      fromstring ("<root>\n".toList ++ "<a>x</a><b>y</b>".toList ++ "\n</root>".toList) =
        some (Element.mk "root".toList (some "\n".toList)
          [.mk "a".toList (some "x".toList) [], .mk "b".toList (some "y".toList) []]) ∧
      parse_xml "<a>x</a><b>y</b>".toList =
        some [("a".toList, DVal.text (some "x".toList)),
          ("b".toList, DVal.text (some "y".toList))]) ∧
    parse_xml "<root><a>x</a>".toList = none := by
  exact ⟨⟨rfl, rfl, rfl⟩, rfl⟩

/-- Discriminator: is the dictionary value a list? -/
def isDList : DVal → Bool
  | .list _ => true
  | _ => false

/-- Shape `xml_to_dict` produces for `n` same-tag children that themselves
have children: the bare mapping for `n = 1`, an ordered list for `n ≥ 2`. -/
def groupValF (fuel : Nat) (cs : List Element) : DVal :=
  match cs with
  | [c] => DVal.dict (xmlToDictF fuel c)
  | _ => DVal.list (cs.map fun c => DVal.dict (xmlToDictF fuel c))

theorem isEmpty_false_of_ne_nil {kids : List Element} (hk : kids ≠ []) :
    kids.isEmpty = false := by
  cases kids with
  | nil => cases hk rfl
  | cons a l => rfl

theorem xmlStep_nil_branch (rec : Element → List (Str × DVal)) (g : Str) (tx : Option Str)
    (kids : List Element) (hk : kids ≠ []) :
    xmlStepWith rec [] (.mk g tx kids) = [(g, DVal.dict (rec (.mk g tx kids)))] := by
  rw [xmlStepWith]
  rw [isEmpty_false_of_ne_nil hk]
  simp [lookupA, updateA]

theorem xmlStep_dict_branch (rec : Element → List (Str × DVal)) (g : Str) (d1 : List (Str × DVal))
    (tx : Option Str) (kids : List Element) (hk : kids ≠ []) :
    xmlStepWith rec [(g, DVal.dict d1)] (.mk g tx kids) =
      [(g, DVal.list [DVal.dict d1, DVal.dict (rec (.mk g tx kids))])] := by
  rw [xmlStepWith]
  rw [isEmpty_false_of_ne_nil hk]
  simp [lookupA, updateA]

theorem xmlStep_list_branch (rec : Element → List (Str × DVal)) (g : Str) (l : List DVal)
    (tx : Option Str) (kids : List Element) (hk : kids ≠ []) :
    xmlStepWith rec [(g, DVal.list l)] (.mk g tx kids) =
      [(g, DVal.list (l ++ [DVal.dict (rec (.mk g tx kids))]))] := by
  rw [xmlStepWith]
  rw [isEmpty_false_of_ne_nil hk]
  simp [lookupA, updateA]

theorem foldl_xmlStep_list (rec : Element → List (Str × DVal)) (g : Str) :
    ∀ (cs : List Element), (∀ c ∈ cs, c.tag = g ∧ c.children ≠ []) → ∀ l : List DVal,
      cs.foldl (xmlStepWith rec) [(g, DVal.list l)] =
        [(g, DVal.list (l ++ cs.map fun c => DVal.dict (rec c)))] := by
  intro cs
  induction cs with
  | nil => intro _ l; simp
  | cons c rest ih =>
    intro hbr l
    obtain ⟨hc1, hc2⟩ := hbr c (List.mem_cons_self c rest)
    cases c with
    | mk tg tx kids =>
      simp only [Element.tag] at hc1
      simp only [Element.children] at hc2
      subst hc1
      rw [List.foldl_cons, xmlStep_list_branch rec _ l tx kids hc2]
      rw [ih (fun x hx => hbr x (List.mem_cons_of_mem _ hx))]
      simp

/-- C2 (amended): for same-tag children that themselves have children,
`xml_to_dict` yields the bare nested mapping when the tag occurs once and
an ordered list of the nested mappings, in document order, when it occurs
two or more times.  (Childless repeats are different: they overwrite.) -/
theorem C2_single_bare_repeat_grouped (fuel : Nat) (rt : Str) (tx : Option Str) (g : Str)
    (cs : List Element) (hne : cs ≠ [])
    (hbr : ∀ c ∈ cs, c.tag = g ∧ c.children ≠ []) :
    xmlToDictF (fuel + 1) (Element.mk rt tx cs) = [(g, groupValF fuel cs)] := by
  rw [xmlToDictF]
  cases cs with
  | nil => cases hne rfl
  | cons c rest =>
    obtain ⟨hc1, hc2⟩ := hbr c (List.mem_cons_self c rest)
    cases c with
    | mk tg tx1 kids =>
      simp only [Element.tag] at hc1
      simp only [Element.children] at hc2
      subst hc1
      rw [List.foldl_cons, xmlStep_nil_branch _ _ tx1 kids hc2]
      cases rest with
      | nil => rw [List.foldl_nil]; rfl
      | cons c2 rest2 =>
        obtain ⟨h21, h22⟩ := hbr c2 (List.mem_cons_of_mem _ (List.mem_cons_self c2 rest2))
        cases c2 with
        | mk tg2 tx2 kids2 =>
          simp only [Element.tag] at h21
          simp only [Element.children] at h22
          subst h21
          rw [List.foldl_cons, xmlStep_dict_branch _ _ _ tx2 kids2 h22]
          rw [foldl_xmlStep_list _ _ rest2
            (fun x hx => hbr x (List.mem_cons_of_mem _ (List.mem_cons_of_mem _ hx)))]
          simp [groupValF]

/-- Witness for C2: two `problem` children produce a two-element list, in
document order. -/
theorem C2_single_bare_repeat_grouped_witness :
    xmlToDictF 2 (Element.mk "root".toList none
      [Element.mk "problem".toList none [Element.mk "d".toList (some "1".toList) []],
       Element.mk "problem".toList none [Element.mk "d".toList (some "2".toList) []]]) =
      [("problem".toList, groupValF 1
        [Element.mk "problem".toList none [Element.mk "d".toList (some "1".toList) []],
         Element.mk "problem".toList none [Element.mk "d".toList (some "2".toList) []]])] ∧
    groupValF 1
        [Element.mk "problem".toList none [Element.mk "d".toList (some "1".toList) []],
         Element.mk "problem".toList none [Element.mk "d".toList (some "2".toList) []]] =
      DVal.list [DVal.dict [("d".toList, DVal.text (some "1".toList))],
        DVal.dict [("d".toList, DVal.text (some "2".toList))]] := by
  constructor
  · apply C2_single_bare_repeat_grouped 1 "root".toList none "problem".toList
    · intro h; cases h
    · intro c hc
      rcases List.mem_cons.mp hc with rfl | hc
      · exact ⟨rfl, fun h => List.noConfusion h⟩
      rcases List.mem_cons.mp hc with rfl | hc
      · exact ⟨rfl, fun h => List.noConfusion h⟩
      · cases hc
  · rfl

/-- Counterexample to C2: a retrieval response with a single `problem`
child parses to a bare mapping under the `problem` key, not a one-element
list — line 63 stores the child dictionary directly on first occurrence,
and nothing re-normalizes it. -/
theorem C2_counterexample :
    parse_xml "<root><problem><description>d</description></problem></root>".toList =
      some [("problem".toList,
        DVal.dict [("description".toList, DVal.text (some "d".toList))])] ∧
    (parse_xml "<root><problem><description>d</description></problem></root>".toList).map
      (fun d => (lookupA d "problem".toList).map isDList) = some (some false) := by
  exact ⟨rfl, rfl⟩

theorem runPlansAux_allFail (cb : Collab) (t : Int) :
    ∀ (l : List (String × Int)) (pr com : Nat) (lastPC : String × Int),
      l.getLast? = some lastPC →
      (∀ pc ∈ l,
        (tryImproveCode cb.evaluate (cb.improve pc.1) t (cb.generate pc.1).1).result = none) →
      runPlansAux cb t l pr com =
        some ((cb.generate lastPC.1).1,
          pr + (l.map fun pc => planPrTok cb t pc.1).sum,
          com + (l.map fun pc => planComTok cb t pc.1).sum) := by
  intro l
  induction l with
  | nil => intro pr com lastPC h; cases h
  | cons x rest ih =>
    intro pr com lastPC hlast hfail
    cases x with
    | mk planning conf =>
      have hx := hfail (planning, conf) (List.mem_cons_self _ _)
      rw [runPlansAux.eq_def]
      dsimp only
      simp only [hx]
      cases rest with
      | nil =>
        simp only [List.getLast?_singleton, Option.some.injEq] at hlast
        subst hlast
        simp [planPrTok, planComTok]
        omega
      | cons y rest2 =>
        rw [List.getLast?_cons_cons] at hlast
        have ihh := ih (pr + (cb.generate planning).2.1 +
            (tryImproveCode cb.evaluate (cb.improve planning) t (cb.generate planning).1).pr)
          (com + (cb.generate planning).2.2 +
            (tryImproveCode cb.evaluate (cb.improve planning) t (cb.generate planning).1).com)
          lastPC hlast (fun pc hpc => hfail pc (List.mem_cons_of_mem _ hpc))
        rw [ihh]
        simp only [List.map_cons, List.sum_cons, Option.some.injEq, Prod.mk.injEq]
        refine ⟨trivial, ?_, ?_⟩ <;> · simp only [planPrTok, planComTok]; omega

/-- C1 (amended): when every ranked plan's repair loop exhausts its budget
without a passing test, `run_single_pass` returns a non-`None` best-effort
artifact with the accumulated token counters — but it is the initially
generated (unrepaired) candidate of the final plan, because the repaired
candidates live in a local of `_try_improve_code` and never reach the
caller's `code` variable. -/
theorem C1_all_fail_returns_last_generated (cb : Collab) (t : Int)
    (ps : List (String × Int)) (pr com : Nat) (lastPC : String × Int)
    (hlast : (sortByConfDesc ps).getLast? = some lastPC)
    (hfail : ∀ pc ∈ sortByConfDesc ps,
      (tryImproveCode cb.evaluate (cb.improve pc.1) t (cb.generate pc.1).1).result = none) :
    runSinglePassPlans cb t ps pr com =
      some ((cb.generate lastPC.1).1,
        pr + ((sortByConfDesc ps).map fun pc => planPrTok cb t pc.1).sum,
        com + ((sortByConfDesc ps).map fun pc => planComTok cb t pc.1).sum) :=
  runPlansAux_allFail cb t (sortByConfDesc ps) pr com lastPC hlast hfail

/-- Collaborators where generation always produces `"A"`, every test fails,
and every repair produces `"B"`. -/
def cbX : Collab where
  generate := fun _ => ("A", 1, 0)
  evaluate := fun _ => (false, "L")
  improve := fun _ _ _ _ => ("B", 1, 0)

/-- Counterexample to C1: with one ranked plan and `t = 1` the repair loop
fails (`result = none`) after producing the repaired candidate `"B"`, yet
`run_single_pass` returns the pre-repair candidate `"A"` — not the last
repaired candidate. -/
theorem C1_counterexample :
    (tryImproveCode cbX.evaluate (cbX.improve "p") 1 (cbX.generate "p").1).result = none ∧
    candFrom cbX.evaluate (cbX.improve "p") 1 (cbX.generate "p").1 1 = "B" ∧
    runSinglePassPlans cbX 1 [("p", 80)] 0 0 = some ("A", 2, 0) ∧
    ("A" : String) ≠ "B" := by
  exact ⟨rfl, rfl, rfl, by decide⟩

/-- Witness for C1 at the same collaborators: the single ranked plan fails
its loop and the phase returns the generated candidate with the token
totals. -/
theorem C1_all_fail_returns_last_generated_witness :
    runSinglePassPlans cbX 1 [("p", 80)] 0 0 = some ("A", 2, 0) := by
  have hs : sortByConfDesc [(("p" : String), (80 : Int))] = [("p", 80)] := rfl
  have h := C1_all_fail_returns_last_generated cbX 1 [("p", 80)] 0 0 ("p", 80)
    (by rw [hs]; rfl)
    (by
      intro pc hpc
      rw [hs] at hpc
      rcases List.mem_cons.mp hpc with rfl | hpc
      · rfl
      · cases hpc)
  exact h.trans (by rfl)

theorem isPrefB_append_self (p r : Str) : isPrefB p (p ++ r) = true := by
  induction p with
  | nil => rfl
  | cons c p ih => simp [isPrefB, ih]

theorem isPrefB_mono_append {p x : Str} (y : Str) (h : isPrefB p x = true) :
    isPrefB p (x ++ y) = true := by
  obtain ⟨t, rfl⟩ := isPrefB_iff.mp h
  rw [List.append_assoc]
  exact isPrefB_append_self p (t ++ y)

theorem containsSub_of_isPrefB {pat s : Str} (h : isPrefB pat s = true) :
    containsSub pat s = true := by
  cases s with
  | nil =>
    cases pat with
    | nil => rfl
    | cons c p => cases h
  | cons c rest => simp [containsSub, h]

theorem isPrefB_cons_ne {c d : Char} (p s : Str) (h : ¬ c = d) :
    isPrefB (c :: p) (d :: s) = false := by
  simp [isPrefB, h]

theorem isPrefB_append_false {s : Str} : ∀ {p : Str} (y : Str),
    isPrefB s p = false → isPrefB p s = false → isPrefB p (s ++ y) = false := by
  induction s with
  | nil => intro p y h1 _; cases p <;> cases h1
  | cons c s ih =>
    intro p y h1 h2
    cases p with
    | nil => cases h2
    | cons d p =>
      by_cases hdc : d = c
      · subst hdc
        simp only [isPrefB, beq_self_eq_true, Bool.true_and] at h1 h2
        simp only [List.cons_append, isPrefB, beq_self_eq_true, Bool.true_and]
        exact ih y h1 h2
      · simp only [List.cons_append]
        exact isPrefB_cons_ne p (s ++ y) hdc

/-- No nonempty suffix of `x` is prefix-compatible with `p` in either
direction; for concrete `p` and `x` this is decidable and rules out every
occurrence of `p` that starts inside `x`, whatever follows `x`. -/
def noPrefClash (p x : Str) : Bool :=
  x.tails.all fun s => s.isEmpty || (!(isPrefB s p) && !(isPrefB p s))

theorem noPrefClash_cons {p : Str} {c : Char} {x : Str} (h : noPrefClash p (c :: x) = true) :
    (isPrefB (c :: x) p = false ∧ isPrefB p (c :: x) = false) ∧ noPrefClash p x = true := by
  rw [noPrefClash, List.tails_cons, List.all_cons] at h
  obtain ⟨h1, h2⟩ := Bool.and_eq_true_iff.mp h
  refine ⟨?_, h2⟩
  simp only [List.isEmpty_cons, Bool.false_or, Bool.and_eq_true, Bool.not_eq_true'] at h1
  exact h1

theorem containsSub_append_concrete {p : Str} : ∀ (x : Str) {y : Str},
    noPrefClash p x = true → containsSub p y = false → containsSub p (x ++ y) = false := by
  intro x
  induction x with
  | nil => intro y _ hy; exact hy
  | cons c x ih =>
    intro y hx hy
    obtain ⟨⟨h1, h2⟩, hx'⟩ := noPrefClash_cons hx
    rw [List.cons_append, containsSub]
    rw [← List.cons_append]
    rw [isPrefB_append_false y h1 h2]
    rw [Bool.false_or]
    exact ih hx' hy

theorem containsSub_append_bqfree {p' : Str} : ∀ (x : Str) {y : Str},
    btk ∉ x → containsSub (btk :: p') y = false → containsSub (btk :: p') (x ++ y) = false := by
  intro x
  induction x with
  | nil => intro y _ hy; exact hy
  | cons c x ih =>
    intro y hx hy
    have hc : ¬ btk = c := fun h => hx (h ▸ List.mem_cons_self c x)
    rw [List.cons_append, containsSub, isPrefB_cons_ne p' (x ++ y) hc, Bool.false_or]
    exact ih (fun h => hx (List.mem_cons_of_mem c h)) hy

/-- The text family for the multi-block theorem: two same-hint python
fences, contents `'\n' :: a` and `'\n' :: b`, in that document order. -/
def Tpy (a b : Str) : Str :=
  "```python\n".toList ++ (a ++ ("```\n```python\n".toList ++ (b ++ "```".toList)))

theorem hint_not_in_Tpy {p : Str} (p' : Str) (hp : p = btk :: p') (a b : Str)
    (ha : btk ∉ a) (hb : btk ∉ b)
    (k1 : noPrefClash p "```python\n".toList = true)
    (k2 : noPrefClash p "```\n```python\n".toList = true)
    (k3 : containsSub p "```".toList = false) :
    containsSub p (Tpy a b) = false := by
  subst hp
  rw [Tpy]
  apply containsSub_append_concrete _ k1
  apply containsSub_append_bqfree _ ha
  apply containsSub_append_concrete _ k2
  apply containsSub_append_bqfree _ hb
  exact k3

theorem splitAtSub_pref {pat : Str} (hp : pat ≠ []) (r : Str) :
    splitAtSub pat (pat ++ r) = some ([], r) := by
  cases pat with
  | nil => cases hp rfl
  | cons c p =>
    rw [List.cons_append, splitAtSub]
    rw [if_pos (show isPrefB (c :: p) (c :: (p ++ r)) = true from isPrefB_append_self (c :: p) r)]
    show some ([], List.drop p.length (p ++ r)) = some ([], r)
    rw [List.drop_left]

theorem splitAtSub_clean {pat : Str} (p' : Str) (hpat : pat = btk :: p') :
    ∀ (s : Str), btk ∉ s → ∀ (r : Str), splitAtSub pat (s ++ (pat ++ r)) = some (s, r) := by
  intro s
  induction s with
  | nil => intro _ r; exact splitAtSub_pref (by rw [hpat]; exact List.cons_ne_nil _ _) r
  | cons c s ih =>
    intro hs r
    have hc : ¬ btk = c := fun h => hs (h ▸ List.mem_cons_self c s)
    rw [List.cons_append, splitAtSub]
    rw [hpat, isPrefB_cons_ne p' (s ++ (btk :: p' ++ r)) hc]
    rw [← hpat, if_neg (by simp)]
    rw [ih (fun h => hs (List.mem_cons_of_mem c h)) r]
    rfl

theorem findBlocks_step_some {openPat s b after content rest : Str} (hpat : openPat ≠ [])
    (h1 : splitAtSub openPat s = some (b, after))
    (h2 : splitAtSub bq3 after = some (content, rest)) :
    findBlocks openPat s = content :: findBlocks openPat rest := by
  rw [findBlocks_step hpat, h1]
  show (match splitAtSub bq3 after with
    | none => []
    | some (content, rest) => content :: findBlocks openPat rest) =
    content :: findBlocks openPat rest
  rw [h2]

theorem findBlocks_of_no_open {openPat s : Str} (hpat : openPat ≠ [])
    (h1 : splitAtSub openPat s = none) : findBlocks openPat s = [] := by
  rw [findBlocks_step hpat, h1]

theorem selectPattern_Tpy (a b : Str) (ha : btk ∉ a) (hb : btk ∉ b) :
    selectPattern (Tpy a b) = "```python".toList := by
  have e01 : containsSub "```Python".toList (Tpy a b) = false :=
    hint_not_in_Tpy "``Python".toList (by decide) a b ha hb (by decide) (by decide) (by decide)
  have e02 : containsSub "```Python3".toList (Tpy a b) = false :=
    hint_not_in_Tpy "``Python3".toList (by decide) a b ha hb (by decide) (by decide) (by decide)
  have e03 : containsSub "```python3".toList (Tpy a b) = false :=
    hint_not_in_Tpy "``python3".toList (by decide) a b ha hb (by decide) (by decide) (by decide)
  have e04 : containsSub "```C".toList (Tpy a b) = false :=
    hint_not_in_Tpy "``C".toList (by decide) a b ha hb (by decide) (by decide) (by decide)
  have e05 : containsSub "```c".toList (Tpy a b) = false :=
    hint_not_in_Tpy "``c".toList (by decide) a b ha hb (by decide) (by decide) (by decide)
  have e06 : containsSub "```C++".toList (Tpy a b) = false :=
    hint_not_in_Tpy "``C++".toList (by decide) a b ha hb (by decide) (by decide) (by decide)
  have e07 : containsSub "```c++".toList (Tpy a b) = false :=
    hint_not_in_Tpy "``c++".toList (by decide) a b ha hb (by decide) (by decide) (by decide)
  have e08 : containsSub "```Java".toList (Tpy a b) = false :=
    hint_not_in_Tpy "``Java".toList (by decide) a b ha hb (by decide) (by decide) (by decide)
  have e09 : containsSub "```java".toList (Tpy a b) = false :=
    hint_not_in_Tpy "``java".toList (by decide) a b ha hb (by decide) (by decide) (by decide)
  have e10 : containsSub "```Node".toList (Tpy a b) = false :=
    hint_not_in_Tpy "``Node".toList (by decide) a b ha hb (by decide) (by decide) (by decide)
  have e11 : containsSub "```node".toList (Tpy a b) = false :=
    hint_not_in_Tpy "``node".toList (by decide) a b ha hb (by decide) (by decide) (by decide)
  have e12 : containsSub "```Rust".toList (Tpy a b) = false :=
    hint_not_in_Tpy "``Rust".toList (by decide) a b ha hb (by decide) (by decide) (by decide)
  have e13 : containsSub "```rust".toList (Tpy a b) = false :=
    hint_not_in_Tpy "``rust".toList (by decide) a b ha hb (by decide) (by decide) (by decide)
  have e14 : containsSub "```PHP".toList (Tpy a b) = false :=
    hint_not_in_Tpy "``PHP".toList (by decide) a b ha hb (by decide) (by decide) (by decide)
  have e15 : containsSub "```php".toList (Tpy a b) = false :=
    hint_not_in_Tpy "``php".toList (by decide) a b ha hb (by decide) (by decide) (by decide)
  have e16 : containsSub "```Go".toList (Tpy a b) = false :=
    hint_not_in_Tpy "``Go".toList (by decide) a b ha hb (by decide) (by decide) (by decide)
  have e17 : containsSub "```go".toList (Tpy a b) = false :=
    hint_not_in_Tpy "``go".toList (by decide) a b ha hb (by decide) (by decide) (by decide)
  have e18 : containsSub "```Ruby".toList (Tpy a b) = false :=
    hint_not_in_Tpy "``Ruby".toList (by decide) a b ha hb (by decide) (by decide) (by decide)
  have e19 : containsSub "```ruby".toList (Tpy a b) = false :=
    hint_not_in_Tpy "``ruby".toList (by decide) a b ha hb (by decide) (by decide) (by decide)
  have e20 : containsSub "```C#".toList (Tpy a b) = false :=
    hint_not_in_Tpy "``C#".toList (by decide) a b ha hb (by decide) (by decide) (by decide)
  have e21 : containsSub "```c#".toList (Tpy a b) = false :=
    hint_not_in_Tpy "``c#".toList (by decide) a b ha hb (by decide) (by decide) (by decide)
  have e22 : containsSub "```csharp".toList (Tpy a b) = false :=
    hint_not_in_Tpy "``csharp".toList (by decide) a b ha hb (by decide) (by decide) (by decide)
  have epy : containsSub "```python".toList (Tpy a b) = true := by
    apply containsSub_of_isPrefB
    exact isPrefB_mono_append _ (by decide)
  simp at e01 e02 e03 e04 e05 e06 e07 e08 e09 e10 e11 e12 e13 e14 e15 e16 e17 e18 e19 e20 e21 e22 epy
  unfold selectPattern
  simp [e01, e02, e03, e04, e05, e06, e07, e08, e09, e10, e11, e12, e13, e14, e15,
    e16, e17, e18, e19, e20, e21, e22, epy]

theorem btk_notin_cons {a : Str} (c : Char) (hc : ¬ btk = c) (ha : btk ∉ a) :
    btk ∉ c :: a := by
  intro h
  rcases List.mem_cons.mp h with h | h
  · exact hc h
  · exact ha h

theorem findBlocks_Tpy (a b : Str) (ha : btk ∉ a) (hb : btk ∉ b) :
    findBlocks "```python".toList (Tpy a b) = [('\n' :: a), ('\n' :: b)] := by
  have s1 : splitAtSub "```python".toList (Tpy a b) =
      some ([], '\n' :: (a ++ ("```\n```python\n".toList ++ (b ++ "```".toList)))) :=
    splitAtSub_pref (by decide) ('\n' :: (a ++ ("```\n```python\n".toList ++ (b ++ "```".toList))))
  have s2 : splitAtSub bq3 ('\n' :: (a ++ ("```\n```python\n".toList ++ (b ++ "```".toList)))) =
      some ('\n' :: a, '\n' :: ("```python\n".toList ++ (b ++ "```".toList))) :=
    splitAtSub_clean "``".toList (by decide) ('\n' :: a)
      (btk_notin_cons '\n' (by decide) ha)
      ('\n' :: ("```python\n".toList ++ (b ++ "```".toList)))
  have s3 : splitAtSub "```python".toList
      ('\n' :: ("```python\n".toList ++ (b ++ "```".toList))) =
      some (['\n'], '\n' :: (b ++ "```".toList)) :=
    splitAtSub_clean "``python".toList (by decide) ['\n'] (by decide)
      ('\n' :: (b ++ "```".toList))
  have s4 : splitAtSub bq3 ('\n' :: (b ++ "```".toList)) = some ('\n' :: b, []) :=
    splitAtSub_clean "``".toList (by decide) ('\n' :: b)
      (btk_notin_cons '\n' (by decide) hb) []
  rw [findBlocks_step_some (by decide) s1 s2]
  rw [findBlocks_step_some (by decide) s3 s4]
  rw [findBlocks_of_no_open (by decide) (by rfl)]

/-- C5 (amended): for text holding two fenced blocks under the same
(`python`) hint, `parse_code` does pick the last block in document order,
but returns its contents followed by a newline and the final character of
those contents — the artifact of `"\n".join` over the two regex capture
groups at line 138 — not the contents character for character. -/
theorem C5_last_block_join_artifact (a b : Str) (ha : btk ∉ a) (hb : btk ∉ b) :
    parse_code (Tpy a b) = some (('\n' :: b) ++ '\n' :: lastCharPiece ('\n' :: b)) := by
  have hbq : containsSub "```".toList (Tpy a b) = true := by
    apply containsSub_of_isPrefB
    exact isPrefB_mono_append _ (by decide)
  rw [parse_code]
  rw [hbq]
  rw [if_neg (by simp)]
  rw [selectPattern_Tpy a b ha hb, findBlocks_Tpy a b ha hb]
  rfl

/-- Witness for C5: with contents `AA` and `BB` the returned string is
`"\nBB\nB"`, i.e. the last block plus the join artifact. -/
theorem C5_last_block_join_artifact_witness :
    btk ∉ "AA".toList ∧
    parse_code (Tpy "AA".toList "BB".toList) = some "\nBB\nB".toList := by
  refine ⟨by decide, ?_⟩
  have h := C5_last_block_join_artifact "AA".toList "BB".toList (by decide) (by decide)
  exact h.trans (by decide)

/-- Counterexample to C5: two `python`-hinted blocks whose last contents
are `"\nCC\n"`; `parse_code` returns `"\nCC\n\n\n"`, not those contents
character for character. -/
theorem C5_counterexample :
    (findBlocks (selectPattern "```python\nBB\n``` and ```python\nCC\n```".toList)
      "```python\nBB\n``` and ```python\nCC\n```".toList).getLast? = some "\nCC\n".toList ∧
    parse_code "```python\nBB\n``` and ```python\nCC\n```".toList =
      some "\nCC\n\n\n".toList ∧
    "\nCC\n\n\n".toList ≠ "\nCC\n".toList := by
  decide

end MapCoder
